import Mathlib

/-!
Shallow embedding of `rename_project_references.py` (src/main.py): a one-shot
maintenance script that walks a directory tree and performs a literal,
case-sensitive, global substring replacement in the content of every
decodable file, writing the file back when the old substring occurs.

Model overview:

* `pyReplace` embeds Python's `str.replace(old, new)`, the standard-library
  primitive line 43 of the script delegates to: a leftmost-first scan that
  replaces every non-overlapping occurrence of `old` by `new`; with an empty
  pattern it inserts `new` before every character and once at the end.
* `containsSub` embeds the `old_str in content` substring test of line 40.
* `File` and `update_file_content` embed the per-file routine, including its
  error handling: `readOk` = reading raised no `OSError`, `decodable` = the
  bytes decoded under the configured encoding (no `UnicodeDecodeError`),
  `writeOk` = writing back raised no `OSError`.  Every error path of the
  `try`/`except` blocks returns `False` instead of propagating.  A failed
  write is modelled as leaving the stored content unchanged.
* `FSEntry`, `filesOfList` embed the directory tree and the enumeration of
  regular files that `root_path.rglob(asterisk)` filtered by `is_file()`
  yields; the order of that enumeration is implementation-defined, and the
  model fixes one deterministic traversal order.
* `runLoop` and `process_directory` embed the main loop of lines 80-95 with
  its `files_processed` / `files_updated` counters and the initial
  root-directory validation.
-/

/-- Boolean test that `pre` is a prefix of the second list (character-wise).
Used to detect an occurrence of the old substring at the current scan
position, as Python's `str.replace` does. -/
def startsWith : List Char → List Char → Bool
  | [], _ => true
  | _ :: _, [] => false
  | o :: os, c :: cs => o == c && startsWith os cs

/-- Embedding of Python's `old_str in content` substring-containment test
(line 40 of src/main.py): true iff `old` occurs contiguously in `s`.
The empty pattern is contained in every string, as in Python. -/
def containsSub (old : List Char) : List Char → Bool
  | [] => old.isEmpty
  | c :: rest => startsWith old (c :: rest) || containsSub old rest

/-- Leftmost-first, non-overlapping global replacement for a non-empty
pattern `o :: os`: at each position, if the pattern matches, emit `new` and
resume after the matched occurrence; otherwise keep the character.  The
`skip` counter consumes the remainder of a matched occurrence one character
at a time, which keeps the recursion structural on the scanned list
(`replaceAux_skip_drop` below shows it equals dropping `skip` characters). -/
def replaceAux (o : Char) (os new : List Char) : Nat → List Char → List Char
  | _, [] => []
  | skip + 1, _ :: rest => replaceAux o os new skip rest
  | 0, c :: rest =>
      if startsWith (o :: os) (c :: rest) then
        new ++ replaceAux o os new os.length rest
      else
        c :: replaceAux o os new 0 rest

/-- `interleave new s` is `s` with `new` inserted after every character. -/
def interleave (new : List Char) : List Char → List Char
  | [] => []
  | c :: rest => c :: (new ++ interleave new rest)

/-- Embedding of Python's `content.replace(old_str, new_str)` (line 43 of
src/main.py): every non-overlapping occurrence of `old` in `s` is replaced
by `new`, scanning leftmost-first.  For the empty pattern, Python inserts
`new` before every character and once at the end. -/
def pyReplace (old new s : List Char) : List Char :=
  match old with
  | [] => new ++ interleave new s
  | o :: os => replaceAux o os new 0 s

/-- State of one file, as far as the script can observe it: its decoded
content and the three failure modes of the `try`/`except` blocks of
`update_file_content` (read `OSError`, `UnicodeDecodeError`, write
`OSError`). -/
structure File where
  content : List Char
  decodable : Bool
  readOk : Bool
  writeOk : Bool
deriving DecidableEq

/-- Outcome of `update_file_content` on one file: the returned boolean
(`modified`), whether a write was attempted (`wrote`), and the resulting
file state. -/
structure UpdateResult where
  modified : Bool
  wrote : Bool
  file : File
deriving DecidableEq

/-- Embedding of `update_file_content` (src/main.py lines 19-68): read the
file (an `OSError` or a `UnicodeDecodeError` is caught and yields `False`
with no write); if the old substring occurs in the content, replace all
occurrences and write back, returning `True` on a successful write and
`False` if the write raises (content then modelled unchanged); if the old
substring does not occur, return `False` without writing. -/
def update_file_content (old new : List Char) (f : File) : UpdateResult :=
  if f.readOk then
    if f.decodable then
      if containsSub old f.content then
        if f.writeOk then
          { modified := true, wrote := true,
            file := { f with content := pyReplace old new f.content } }
        else
          { modified := false, wrote := true, file := f }
      else
        { modified := false, wrote := false, file := f }
    else
      { modified := false, wrote := false, file := f }
  else
    { modified := false, wrote := false, file := f }

/-- Configuration constant of src/main.py line 12. -/
def TARGET_DIRECTORY : String := "Dit-Dah-Dash"

/-- Configuration constant of src/main.py line 13 (as decoded characters). -/
def OLD_STRING : List Char := "morse_master".data

/-- Configuration constant of src/main.py line 14 (as decoded characters). -/
def NEW_STRING : List Char := "Dit-Dah-Dash".data

/-- Configuration constant of src/main.py line 15. -/
def FILE_ENCODING : String := "utf-8"

/-- A filesystem entry: a regular file with its observable `File` state, or
a directory with a list of children.  Symbolic links and special files are
out of scope (the script filters with `is_file()`). -/
inductive FSEntry : Type where
  | file (name : String) (data : File) : FSEntry
  | dir (name : String) (children : List FSEntry) : FSEntry

/-- The name component of an entry. -/
def entryName : FSEntry → String
  | .file n _ => n
  | .dir n _ => n

mutual

/-- Regular files below one entry, as (relative path, file state) pairs.
This is the model of the enumeration `root_path.rglob` + `is_file()`
performs (src/main.py lines 90-91); the order of that enumeration is
implementation-defined, and the model fixes this deterministic one. -/
def filesOfEntry : FSEntry → List (List String × File)
  | .file n d => [([n], d)]
  | .dir n cs => (filesOfList cs).map (fun pd => (n :: pd.1, pd.2))

/-- Regular files below a list of sibling entries, in sibling order. -/
def filesOfList : List FSEntry → List (List String × File)
  | [] => []
  | e :: es => filesOfEntry e ++ filesOfList es

end

mutual

/-- Number of regular-file nodes below one entry. -/
def countFilesEntry : FSEntry → Nat
  | .file _ _ => 1
  | .dir _ cs => countFilesList cs

/-- Number of regular-file nodes below a list of sibling entries. -/
def countFilesList : List FSEntry → Nat
  | [] => 0
  | e :: es => countFilesEntry e + countFilesList es

end

/-- Whether some sibling entry carries the given name. -/
def listContainsName (n : String) : List FSEntry → Bool
  | [] => false
  | e :: es => (entryName e == n) || listContainsName n es

mutual

/-- Well-formedness of an entry: sibling names are distinct in every
directory below it (a property every real directory tree has). -/
def wfEntry : FSEntry → Bool
  | .file _ _ => true
  | .dir _ cs => wfList cs

/-- Well-formedness of a sibling list: pairwise distinct names, and each
entry well-formed. -/
def wfList : List FSEntry → Bool
  | [] => true
  | e :: es => !(listContainsName (entryName e) es) && wfEntry e && wfList es

end

/-- `HasFile cs p d`: below the sibling list `cs` there is a regular file at
relative path `p` with state `d` (at any nesting depth). -/
inductive HasFile : List FSEntry → List String → File → Prop where
  | here (n : String) (d : File) (cs : List FSEntry) :
      FSEntry.file n d ∈ cs → HasFile cs [n] d
  | nest (n : String) (sub cs : List FSEntry) (p : List String) (d : File) :
      FSEntry.dir n sub ∈ cs → HasFile sub p d → HasFile cs (n :: p) d

/-- The root the script is pointed at: whether the path exists and is a
directory (the `root_path.is_dir()` check of line 81), and its entries. -/
structure Root where
  isDir : Bool
  entries : List FSEntry

/-- Result of a run: either the configuration error of lines 81-83 (no
counters), or completion with the two reported counters and the final file
states in traversal order. -/
inductive RunOutcome : Type where
  | configError : RunOutcome
  | completed (filesChecked filesUpdated : Nat) (files : List File) : RunOutcome
deriving DecidableEq

/-- The `for item_path in root_path.rglob ...` loop of src/main.py lines
90-95: for each regular file, increment `files_processed`, run
`update_file_content`, and increment `files_updated` when it returns
`True`.  Returns the final counters and the resulting file states. -/
def runLoop (old new : List Char) (checked updated : Nat) :
    List File → Nat × Nat × List File
  | [] => (checked, updated, [])
  | f :: rest =>
      let r := update_file_content old new f
      let out :=
        runLoop old new (checked + 1)
          (if r.modified then updated + 1 else updated) rest
      (out.1, out.2.1, r.file :: out.2.2)

/-- Embedding of `process_directory` (src/main.py lines 70-99): if the root
is not a directory, report a configuration error and stop before touching
any file; otherwise run the loop over all regular files under the root and
report the two counters. -/
def process_directory (old new : List Char) (r : Root) : RunOutcome :=
  if r.isDir then
    let out := runLoop old new 0 0 ((filesOfList r.entries).map Prod.snd)
    .completed out.1 out.2.1 out.2.2
  else
    .configError

/-! ### Basic facts about the replacement primitive -/

/-- Running the skip counter is the same as dropping that many characters
and scanning from a fresh position. -/
theorem replaceAux_skip_drop (o : Char) (os new : List Char) :
    ∀ (k : Nat) (l : List Char),
      replaceAux o os new k l = replaceAux o os new 0 (List.drop k l)
  | 0, _ => rfl
  | _ + 1, [] => rfl
  | k + 1, _ :: rest => replaceAux_skip_drop o os new k rest

/-- Unfolding equation of `pyReplace` at a match position: emit `new` and
resume after the matched occurrence. -/
theorem pyReplace_pos (o : Char) (os new : List Char) (c : Char) (rest : List Char)
    (h : startsWith (o :: os) (c :: rest) = true) :
    pyReplace (o :: os) new (c :: rest)
      = new ++ pyReplace (o :: os) new (List.drop os.length rest) := by
  have hu : pyReplace (o :: os) new (c :: rest)
      = if startsWith (o :: os) (c :: rest) then
          new ++ replaceAux o os new os.length rest
        else c :: replaceAux o os new 0 rest := rfl
  rw [hu, if_pos h, replaceAux_skip_drop o os new os.length rest]
  rfl

/-- Unfolding equation of `pyReplace` at a non-match position: keep the
character and scan on. -/
theorem pyReplace_neg (o : Char) (os new : List Char) (c : Char) (rest : List Char)
    (h : startsWith (o :: os) (c :: rest) = false) :
    pyReplace (o :: os) new (c :: rest) = c :: pyReplace (o :: os) new rest := by
  have hu : pyReplace (o :: os) new (c :: rest)
      = if startsWith (o :: os) (c :: rest) then
          new ++ replaceAux o os new os.length rest
        else c :: replaceAux o os new 0 rest := rfl
  rw [hu, if_neg (by simp [h])]
  rfl

/-- `startsWith` decides the prefix relation. -/
theorem startsWith_iff : ∀ (p s : List Char), startsWith p s = true ↔ ∃ t, s = p ++ t
  | [], s => by simp [startsWith]
  | _ :: _, [] => by simp [startsWith]
  | o :: os, c :: cs => by
      simp only [startsWith, Bool.and_eq_true, beq_iff_eq, List.cons_append,
        List.cons.injEq]
      constructor
      · rintro ⟨rfl, h⟩
        obtain ⟨t, rfl⟩ := (startsWith_iff os cs).mp h
        exact ⟨t, rfl, rfl⟩
      · rintro ⟨t, rfl, rfl⟩
        exact ⟨rfl, (startsWith_iff os (os ++ t)).mpr ⟨t, rfl⟩⟩

/-- The empty pattern is contained in every string (as Python's `in`). -/
theorem containsSub_nil_pattern : ∀ s : List Char, containsSub [] s = true
  | [] => rfl
  | _ :: _ => rfl

/-- If the old substring does not occur, the replacement is the identity. -/
theorem pyReplace_of_not_contains :
    ∀ (old new s : List Char), containsSub old s = false → pyReplace old new s = s
  | [], _, s => by rw [containsSub_nil_pattern s]; intro h; cases h
  | _ :: _, _, [] => fun _ => rfl
  | o :: os, new, c :: rest => by
      intro h
      have h' : (startsWith (o :: os) (c :: rest) || containsSub (o :: os) rest) = false := h
      rw [Bool.or_eq_false_iff] at h'
      rw [pyReplace_neg o os new c rest h'.1,
        pyReplace_of_not_contains (o :: os) new rest h'.2]

/-- Length of the empty-pattern interleaving. -/
theorem interleave_length (new : List Char) :
    ∀ s : List Char, (interleave new s).length = s.length + s.length * new.length
  | [] => by simp [interleave]
  | c :: rest => by
      simp only [interleave, List.length_cons, List.length_append,
        interleave_length new rest]
      ring

/-- Replacing with a pattern at least as long as the replacement never
lengthens the string. -/
theorem pyReplace_length_le (o : Char) (os new : List Char)
    (h : new.length ≤ os.length + 1) :
    ∀ s : List Char, (pyReplace (o :: os) new s).length ≤ s.length
  | [] => Nat.le_refl 0
  | c :: rest => by
      cases hs : startsWith (o :: os) (c :: rest) with
      | true =>
          rw [pyReplace_pos o os new c rest hs]
          have ih := pyReplace_length_le o os new h (List.drop os.length rest)
          have hlen : os.length ≤ rest.length := by
            obtain ⟨t, ht⟩ := (startsWith_iff (o :: os) (c :: rest)).mp hs
            have hr : rest = os ++ t := by injection ht
            simp [hr]
          simp only [List.length_append, List.length_drop, List.length_cons] at ih ⊢
          omega
      | false =>
          rw [pyReplace_neg o os new c rest hs]
          have ih := pyReplace_length_le o os new h rest
          simp only [List.length_cons]
          omega
termination_by s => s.length
decreasing_by
all_goals (try simp only [List.length_drop, List.length_cons])
all_goals omega

/-- Replacing with a pattern no longer than the replacement never shortens
the string. -/
theorem pyReplace_length_ge (o : Char) (os new : List Char)
    (h : os.length + 1 ≤ new.length) :
    ∀ s : List Char, s.length ≤ (pyReplace (o :: os) new s).length
  | [] => Nat.le_refl 0
  | c :: rest => by
      cases hs : startsWith (o :: os) (c :: rest) with
      | true =>
          rw [pyReplace_pos o os new c rest hs]
          have ih := pyReplace_length_ge o os new h (List.drop os.length rest)
          have hlen : os.length ≤ rest.length := by
            obtain ⟨t, ht⟩ := (startsWith_iff (o :: os) (c :: rest)).mp hs
            have : rest = os ++ t := by injection ht
            simp [this]
          simp only [List.length_append, List.length_drop, List.length_cons] at ih ⊢
          omega
      | false =>
          rw [pyReplace_neg o os new c rest hs]
          have ih := pyReplace_length_ge o os new h rest
          simp only [List.length_cons]
          omega
termination_by s => s.length
decreasing_by
all_goals (try simp only [List.length_drop, List.length_cons])
all_goals omega

/-- If the old substring occurs and differs from the new one, the
replacement changes the string. -/
theorem pyReplace_ne_of_contains :
    ∀ (old new s : List Char), old ≠ new → containsSub old s = true →
      pyReplace old new s ≠ s
  | [], new, s => by
      intro hne _
      have hnew : new ≠ [] := fun h => hne h.symm
      have hpos : 0 < new.length := List.length_pos.mpr hnew
      intro heq
      have hlen := congrArg List.length heq
      simp only [pyReplace, List.length_append, interleave_length] at hlen
      have hP : 0 ≤ s.length * new.length := Nat.zero_le _
      omega
  | o :: os, new, [] => by intro _ h; cases h
  | o :: os, new, c :: rest => by
      intro hne hcont
      cases hs : startsWith (o :: os) (c :: rest) with
      | true =>
          obtain ⟨t, ht⟩ := (startsWith_iff (o :: os) (c :: rest)).mp hs
          have hrest : rest = os ++ t := by injection ht
          have hdrop : List.drop os.length rest = t := by
            rw [hrest, List.drop_left]
          rw [pyReplace_pos o os new c rest hs, hdrop, ht]
          rcases Nat.lt_trichotomy new.length (os.length + 1) with hlt | hleq | hgt
          · intro heq
            have hlen := congrArg List.length heq
            have hle := pyReplace_length_le o os new (Nat.le_of_lt hlt) t
            simp only [List.length_append, List.length_cons] at hlen
            omega
          · intro heq
            have htake := congrArg (List.take new.length) heq
            rw [List.take_left] at htake
            have hlc : new.length = (o :: os).length := by
              rw [List.length_cons, hleq]
            rw [hlc, List.take_left] at htake
            exact hne htake.symm
          · intro heq
            have hlen := congrArg List.length heq
            have hge := pyReplace_length_ge o os new (Nat.le_of_lt hgt) t
            simp only [List.length_append, List.length_cons] at hlen
            omega
      | false =>
          have hrest : containsSub (o :: os) rest = true := by
            have h' : (startsWith (o :: os) (c :: rest)
                || containsSub (o :: os) rest) = true := hcont
            rw [hs] at h'
            simpa using h'
          rw [pyReplace_neg o os new c rest hs]
          intro heq
          have : pyReplace (o :: os) new rest = rest := by injection heq
          exact pyReplace_ne_of_contains (o :: os) new rest hne hrest this

/-- With distinct old and new substrings, the replacement changes the
string exactly when the old substring occurs in it. -/
theorem pyReplace_ne_iff (old new : List Char) (hne : old ≠ new) (s : List Char) :
    pyReplace old new s ≠ s ↔ containsSub old s = true := by
  constructor
  · intro h
    cases hc : containsSub old s with
    | true => rfl
    | false => exact absurd (pyReplace_of_not_contains old new s hc) h
  · exact pyReplace_ne_of_contains old new s hne

/-! ### Facts about the main loop -/

/-- Unfolding of the checked counter over one iteration. -/
theorem runLoop_cons_1 (old new : List Char) (c u : Nat) (f : File) (rest : List File) :
    (runLoop old new c u (f :: rest)).1
      = (runLoop old new (c + 1)
          (if (update_file_content old new f).modified then u + 1 else u) rest).1 := rfl

/-- Unfolding of the updated counter over one iteration. -/
theorem runLoop_cons_21 (old new : List Char) (c u : Nat) (f : File) (rest : List File) :
    (runLoop old new c u (f :: rest)).2.1
      = (runLoop old new (c + 1)
          (if (update_file_content old new f).modified then u + 1 else u) rest).2.1 := rfl

/-- Unfolding of the file states over one iteration. -/
theorem runLoop_cons_22 (old new : List Char) (c u : Nat) (f : File) (rest : List File) :
    (runLoop old new c u (f :: rest)).2.2
      = (update_file_content old new f).file
        :: (runLoop old new (c + 1)
            (if (update_file_content old new f).modified then u + 1 else u) rest).2.2 := rfl

/-- The loop visits every file: the final checked counter is the starting
one plus the number of files. -/
theorem runLoop_checked (old new : List Char) :
    ∀ (fs : List File) (c u : Nat), (runLoop old new c u fs).1 = c + fs.length
  | [], _, _ => rfl
  | f :: rest, c, u => by
      rw [runLoop_cons_1, runLoop_checked old new rest]
      simp only [List.length_cons]
      omega

/-- The updated counter never decreases. -/
theorem runLoop_updated_ge (old new : List Char) :
    ∀ (fs : List File) (c u : Nat), u ≤ (runLoop old new c u fs).2.1
  | [], _, u => Nat.le_refl u
  | f :: rest, c, u => by
      rw [runLoop_cons_21]
      cases hm : (update_file_content old new f).modified with
      | true =>
          exact Nat.le_trans (Nat.le_succ u)
            (runLoop_updated_ge old new rest (c + 1) (u + 1))
      | false =>
          exact runLoop_updated_ge old new rest (c + 1) u

/-- The updated counter never exceeds the checked counter. -/
theorem runLoop_updated_le_checked (old new : List Char) :
    ∀ (fs : List File) (c u : Nat), u ≤ c →
      (runLoop old new c u fs).2.1 ≤ (runLoop old new c u fs).1
  | [], _, _, h => h
  | f :: rest, c, u, h => by
      rw [runLoop_cons_1, runLoop_cons_21]
      refine runLoop_updated_le_checked old new rest (c + 1) _ ?_
      cases hm : (update_file_content old new f).modified with
      | true => exact Nat.succ_le_succ h
      | false => exact Nat.le_succ_of_le h

/-- The loop maps `update_file_content` over every file, independently of
the counters. -/
theorem runLoop_files (old new : List Char) :
    ∀ (fs : List File) (c u : Nat),
      (runLoop old new c u fs).2.2
        = fs.map (fun f => (update_file_content old new f).file)
  | [], _, _ => rfl
  | f :: rest, c, u => by
      rw [runLoop_cons_22, runLoop_files old new rest]
      rfl

/-- Splitting the loop: the counters after a whole run equal the counters
of the second part started from the counters of the first part. -/
theorem runLoop_append (old new : List Char) :
    ∀ (xs ys : List File) (c u : Nat),
      (runLoop old new c u (xs ++ ys)).1
        = (runLoop old new (runLoop old new c u xs).1
            (runLoop old new c u xs).2.1 ys).1
      ∧ (runLoop old new c u (xs ++ ys)).2.1
        = (runLoop old new (runLoop old new c u xs).1
            (runLoop old new c u xs).2.1 ys).2.1
  | [], _, _, _ => ⟨rfl, rfl⟩
  | x :: xs, ys, c, u =>
      runLoop_append old new xs ys (c + 1)
        (if (update_file_content old new x).modified then u + 1 else u)

/-! ### Facts about the traversal -/

/-- Files below a member entry are files below the sibling list. -/
theorem mem_filesOfList_of_mem {e : FSEntry} :
    ∀ {cs : List FSEntry}, e ∈ cs →
      ∀ {pd : List String × File}, pd ∈ filesOfEntry e → pd ∈ filesOfList cs
  | c' :: cs', hmem, pd, hpd => by
      rw [List.mem_cons] at hmem
      have hunf : filesOfList (c' :: cs') = filesOfEntry c' ++ filesOfList cs' := rfl
      rw [hunf, List.mem_append]
      rcases hmem with rfl | hmem
      · exact Or.inl hpd
      · exact Or.inr (mem_filesOfList_of_mem hmem hpd)

/-- Soundness half of the traversal: every file the tree holds is
enumerated. -/
theorem hasFile_mem_filesOfList {cs : List FSEntry} {p : List String} {d : File}
    (h : HasFile cs p d) : (p, d) ∈ filesOfList cs := by
  induction h with
  | here n d cs hmem =>
      refine mem_filesOfList_of_mem hmem ?_
      simp [filesOfEntry]
  | nest n sub cs p d hmem _ ih =>
      refine mem_filesOfList_of_mem hmem ?_
      simp only [filesOfEntry, List.mem_map]
      exact ⟨(p, d), ih, rfl⟩

/-- Weakening: a file below a sibling list is below any extension of it. -/
theorem hasFile_cons {e : FSEntry} {cs : List FSEntry} {p : List String} {d : File}
    (h : HasFile cs p d) : HasFile (e :: cs) p d := by
  cases h with
  | here n d cs hmem => exact .here n d _ (List.mem_cons_of_mem e hmem)
  | nest n sub cs p d hmem hsub => exact .nest n sub _ p d (List.mem_cons_of_mem e hmem) hsub

mutual

/-- Completeness half, entry form: an enumerated file below a member entry
is held by the tree. -/
theorem hasFile_of_mem_entry :
    ∀ (e : FSEntry) (cs : List FSEntry), e ∈ cs →
      ∀ (p : List String) (d : File), (p, d) ∈ filesOfEntry e → HasFile cs p d
  | .file n dd, cs, hmem, p, d, h => by
      simp only [filesOfEntry, List.mem_singleton, Prod.mk.injEq] at h
      obtain ⟨hp, hd⟩ := h
      subst hp
      subst hd
      exact .here n _ cs hmem
  | .dir n sub, cs, hmem, p, d, h => by
      simp only [filesOfEntry, List.mem_map, Prod.mk.injEq] at h
      obtain ⟨⟨q, d'⟩, hq, hq2, hd⟩ := h
      subst hq2
      subst hd
      exact .nest n sub cs q _ hmem (hasFile_of_mem_list sub q _ hq)

/-- Completeness half, list form: an enumerated file is held by the tree. -/
theorem hasFile_of_mem_list :
    ∀ (cs : List FSEntry) (p : List String) (d : File),
      (p, d) ∈ filesOfList cs → HasFile cs p d
  | [], _, _ => fun h => absurd h (List.not_mem_nil _)
  | e :: es, p, d => by
      intro h
      have hunf : filesOfList (e :: es) = filesOfEntry e ++ filesOfList es := rfl
      rw [hunf, List.mem_append] at h
      rcases h with h | h
      · exact hasFile_of_mem_entry e (e :: es) (List.mem_cons_self e es) p d h
      · exact hasFile_cons (hasFile_of_mem_list es p d h)

end

/-- Every enumerated path below one entry starts with that entry's name. -/
theorem head_of_mem_filesOfEntry :
    ∀ (e : FSEntry) (pd : List String × File), pd ∈ filesOfEntry e →
      ∃ t, pd.1 = entryName e :: t
  | .file n d, pd, h => by
      simp only [filesOfEntry, List.mem_singleton] at h
      subst h
      exact ⟨[], rfl⟩
  | .dir n cs, pd, h => by
      simp only [filesOfEntry, List.mem_map] at h
      obtain ⟨⟨q, d'⟩, _, rfl⟩ := h
      exact ⟨q, rfl⟩

/-- A name reported absent from a sibling list is no member's name. -/
theorem listContainsName_false {n : String} :
    ∀ {cs : List FSEntry}, listContainsName n cs = false →
      ∀ e ∈ cs, entryName e ≠ n
  | [], _, e, hmem => absurd hmem (List.not_mem_nil e)
  | c' :: cs', h, e, hmem => by
      have h' : (entryName c' == n || listContainsName n cs') = false := h
      rw [Bool.or_eq_false_iff] at h'
      rw [List.mem_cons] at hmem
      rcases hmem with rfl | hmem
      · intro hn
        rw [hn] at h'
        simp at h'
      · exact listContainsName_false h'.2 e hmem

/-- Every enumerated path below a sibling list starts with a member's
name. -/
theorem head_of_mem_filesOfList :
    ∀ (cs : List FSEntry) (pd : List String × File), pd ∈ filesOfList cs →
      ∃ e ∈ cs, ∃ t, pd.1 = entryName e :: t
  | e :: es, pd, h => by
      have hunf : filesOfList (e :: es) = filesOfEntry e ++ filesOfList es := rfl
      rw [hunf, List.mem_append] at h
      rcases h with h | h
      · obtain ⟨t, ht⟩ := head_of_mem_filesOfEntry e pd h
        exact ⟨e, List.mem_cons_self e es, t, ht⟩
      · obtain ⟨e', he', t, ht⟩ := head_of_mem_filesOfList es pd h
        exact ⟨e', List.mem_cons_of_mem e he', t, ht⟩

mutual

/-- In a well-formed tree, the paths enumerated below one entry are
pairwise distinct. -/
theorem nodup_paths_entry :
    ∀ (e : FSEntry), wfEntry e = true → ((filesOfEntry e).map Prod.fst).Nodup
  | .file n d, _ => by simp [filesOfEntry]
  | .dir n cs, h => by
      have h' : wfList cs = true := h
      have hn := nodup_paths_list cs h'
      simp only [filesOfEntry, List.map_map]
      have hcomp : (Prod.fst ∘ fun pd : List String × File => (n :: pd.1, pd.2))
          = (fun t => n :: t) ∘ Prod.fst := rfl
      rw [hcomp, ← List.map_map]
      refine List.Nodup.map ?_ hn
      intro a b hab
      injection hab

/-- In a well-formed tree, the paths enumerated below a sibling list are
pairwise distinct. -/
theorem nodup_paths_list :
    ∀ (cs : List FSEntry), wfList cs = true → ((filesOfList cs).map Prod.fst).Nodup
  | [], _ => List.nodup_nil
  | e :: es, h => by
      have hh : (!(listContainsName (entryName e) es) && wfEntry e && wfList es) = true := h
      rw [Bool.and_eq_true, Bool.and_eq_true, Bool.not_eq_true'] at hh
      obtain ⟨⟨hname, hwfe⟩, hwfl⟩ := hh
      have hunf : filesOfList (e :: es) = filesOfEntry e ++ filesOfList es := rfl
      rw [hunf, List.map_append]
      refine List.Nodup.append (nodup_paths_entry e hwfe) (nodup_paths_list es hwfl) ?_
      intro p hp1 hp2
      rw [List.mem_map] at hp1 hp2
      obtain ⟨pd1, hpd1, rfl⟩ := hp1
      obtain ⟨pd2, hpd2, hfst⟩ := hp2
      obtain ⟨t1, ht1⟩ := head_of_mem_filesOfEntry e pd1 hpd1
      obtain ⟨e', he', t2, ht2⟩ := head_of_mem_filesOfList es pd2 hpd2
      have hne := listContainsName_false hname e' he'
      rw [ht1] at hfst
      rw [ht2] at hfst
      injection hfst with h1 _
      exact hne h1

end

mutual

/-- The enumeration below one entry has exactly as many files as the
entry holds. -/
theorem length_filesOfEntry : ∀ (e : FSEntry), (filesOfEntry e).length = countFilesEntry e
  | .file _ _ => rfl
  | .dir n cs => by
      simp only [filesOfEntry, countFilesEntry, List.length_map]
      exact length_filesOfList cs

/-- The enumeration below a sibling list has exactly as many files as the
subtrees hold. -/
theorem length_filesOfList : ∀ (cs : List FSEntry), (filesOfList cs).length = countFilesList cs
  | [] => rfl
  | e :: es => by
      have hunf : filesOfList (e :: es) = filesOfEntry e ++ filesOfList es := rfl
      rw [hunf, List.length_append, length_filesOfEntry e, length_filesOfList es]
      rfl

end

/-- With the empty pattern, the replacement inserts `new` before every
character and once at the end of the content. -/
theorem pyReplace_nil_pattern (new : List Char) :
    ∀ s : List Char, pyReplace [] new s
      = s.foldr (fun c acc => new ++ (c :: acc)) new
  | [] => by simp [pyReplace, interleave]
  | c :: rest => by
      have ih := pyReplace_nil_pattern new rest
      show new ++ (c :: (new ++ interleave new rest))
        = new ++ (c :: (rest.foldr (fun c acc => new ++ (c :: acc)) new))
      rw [← ih]
      rfl

/-! ### Example inputs used by the witnesses -/

/-- A readable, decodable, writable file containing the old string once. -/
def okFile : File :=
  { content := "morse_master rocks".data, decodable := true, readOk := true,
    writeOk := true }

/-- A readable file whose bytes do not decode (e.g. a binary file). -/
def binFile : File :=
  { content := [], decodable := false, readOk := true, writeOk := true }

/-- A file whose read raises an `OSError`. -/
def unreadableFile : File :=
  { content := "morse_master".data, decodable := true, readOk := false,
    writeOk := true }

/-- A two-level example directory tree with distinct sibling names. -/
def exTree : List FSEntry :=
  [FSEntry.file "a" okFile,
   FSEntry.dir "d"
     [FSEntry.file "a" binFile,
      FSEntry.dir "e" [FSEntry.file "c" okFile]]]

/-- An example root that exists and is a directory. -/
def exRoot : Root := { isDir := true, entries := exTree }

/-! ### The claims -/

/-- C1: for every file whose content decodes and contains the old
substring (and whose write succeeds, the no-write-error case the spec's
replacement contract describes), after `update_file_content` the content
equals the original with every non-overlapping occurrence of the old
substring replaced leftmost-first by the new one and nothing else changed:
the stored content is exactly `pyReplace`, whose scan emits `new` at each
match and resumes after it, keeps each non-matching character unchanged,
and in particular replaces both occurrences in
`morse_master/morse_master`. -/
theorem claim_C1_replacement_correct (old new : List Char) (f : File)
    (hread : f.readOk = true) (hdec : f.decodable = true)
    (hwrite : f.writeOk = true) (hocc : containsSub old f.content = true) :
    (update_file_content old new f).file.content = pyReplace old new f.content
    ∧ (update_file_content old new f).modified = true
    ∧ (∀ (o : Char) (os s : List Char), startsWith (o :: os) s = true →
        pyReplace (o :: os) new s
          = new ++ pyReplace (o :: os) new (List.drop (o :: os).length s))
    ∧ (∀ (o : Char) (os : List Char) (c : Char) (s : List Char),
        startsWith (o :: os) (c :: s) = false →
          pyReplace (o :: os) new (c :: s) = c :: pyReplace (o :: os) new s)
    ∧ pyReplace OLD_STRING NEW_STRING "morse_master/morse_master".data
        = "Dit-Dah-Dash/Dit-Dah-Dash".data := by
  refine ⟨?_, ?_, ?_, ?_, ?_⟩
  · simp [update_file_content, hread, hdec, hwrite, hocc]
  · simp [update_file_content, hread, hdec, hwrite, hocc]
  · intro o os s h
    match s, h with
    | c :: rest, h => exact pyReplace_pos o os new c rest h
    | [], h => exact absurd h (by simp [startsWith])
  · intro o os c s h
    exact pyReplace_neg o os new c s h
  · decide

/-- Witness for C1 at a concrete file. -/
theorem claim_C1_witness :
    containsSub OLD_STRING okFile.content = true
    ∧ (update_file_content OLD_STRING NEW_STRING okFile).file.content
        = pyReplace OLD_STRING NEW_STRING okFile.content :=
  ⟨by decide,
   (claim_C1_replacement_correct OLD_STRING NEW_STRING okFile rfl rfl rfl
      (by decide)).1⟩

/-- C2: for a decodable, readable file and distinct old/new substrings (as
the script's configuration has), a write is attempted only when the
replacement changes the content, no write happens when the old substring
does not occur, and the returned boolean is true exactly when the file's
content changed and the write-back succeeded. -/
theorem claim_C2_write_only_on_change (old new : List Char) (f : File)
    (hne : old ≠ new) (hread : f.readOk = true) (hdec : f.decodable = true) :
    ((update_file_content old new f).wrote = true →
      pyReplace old new f.content ≠ f.content)
    ∧ (containsSub old f.content = false →
        (update_file_content old new f).wrote = false
        ∧ (update_file_content old new f).file = f)
    ∧ ((update_file_content old new f).modified = true ↔
        ((update_file_content old new f).file.content ≠ f.content
          ∧ f.writeOk = true))
    ∧ OLD_STRING ≠ NEW_STRING := by
  refine ⟨?_, ?_, ?_, by decide⟩
  · intro hw
    cases hocc : containsSub old f.content with
    | true => exact pyReplace_ne_of_contains old new f.content hne hocc
    | false => simp [update_file_content, hread, hdec, hocc] at hw
  · intro hocc
    constructor
    · simp [update_file_content, hread, hdec, hocc]
    · simp [update_file_content, hread, hdec, hocc]
  · cases hocc : containsSub old f.content with
    | true =>
        cases hw : f.writeOk with
        | true =>
            simp only [update_file_content, hread, hdec, hocc, hw, if_true]
            simp
            exact pyReplace_ne_of_contains old new f.content hne hocc
        | false => simp [update_file_content, hread, hdec, hocc, hw]
    | false => simp [update_file_content, hread, hdec, hocc]

/-- Witness for C2 at a concrete file. -/
theorem claim_C2_witness :
    ("a".data ≠ ("b".data : List Char))
    ∧ ((update_file_content "a".data "b".data okFile).wrote = true →
        pyReplace "a".data "b".data okFile.content ≠ okFile.content) :=
  ⟨by decide,
   (claim_C2_write_only_on_change "a".data "b".data okFile (by decide)
      rfl rfl).1⟩

/-- C3: a file whose bytes do not decode is skipped: no write is
attempted, its state is left unchanged, the call returns false, and the
run continues with the following files, counting it as checked but not
updated. -/
theorem claim_C3_decode_error_skipped (old new : List Char) (f : File)
    (hread : f.readOk = true) (hdec : f.decodable = false) :
    update_file_content old new f
      = { modified := false, wrote := false, file := f }
    ∧ (∀ (c u : Nat) (rest : List File),
        (runLoop old new c u (f :: rest)).1 = (runLoop old new (c + 1) u rest).1
        ∧ (runLoop old new c u (f :: rest)).2.1
            = (runLoop old new (c + 1) u rest).2.1
        ∧ (runLoop old new c u (f :: rest)).2.2
            = f :: (runLoop old new (c + 1) u rest).2.2) := by
  have hu : update_file_content old new f
      = { modified := false, wrote := false, file := f } := by
    simp [update_file_content, hread, hdec]
  refine ⟨hu, ?_⟩
  intro c u rest
  refine ⟨?_, ?_, ?_⟩
  · rw [runLoop_cons_1, hu]
    rfl
  · rw [runLoop_cons_21, hu]
    rfl
  · rw [runLoop_cons_22, hu]
    rfl

/-- Witness for C3 at a concrete undecodable file. -/
theorem claim_C3_witness :
    binFile.decodable = false
    ∧ update_file_content OLD_STRING NEW_STRING binFile
        = { modified := false, wrote := false, file := binFile } :=
  ⟨rfl,
   (claim_C3_decode_error_skipped OLD_STRING NEW_STRING binFile rfl rfl).1⟩

/-- C4: when the root path is missing or not a directory, the run reports
a configuration error and halts at once: the outcome is `configError`, and
no completed outcome (hence no counters and no processed files) is
produced. -/
theorem claim_C4_config_error_halts (old new : List Char) (r : Root)
    (h : r.isDir = false) :
    process_directory old new r = RunOutcome.configError
    ∧ ∀ (c u : Nat) (fs : List File),
        process_directory old new r ≠ RunOutcome.completed c u fs := by
  have h1 : process_directory old new r = RunOutcome.configError := by
    simp [process_directory, h]
  refine ⟨h1, ?_⟩
  intro c u fs hc
  rw [h1] at hc
  cases hc

/-- Witness for C4 at a concrete missing root. -/
theorem claim_C4_witness :
    ({ isDir := false, entries := exTree } : Root).isDir = false
    ∧ process_directory OLD_STRING NEW_STRING
        { isDir := false, entries := exTree } = RunOutcome.configError :=
  ⟨rfl,
   (claim_C4_config_error_halts OLD_STRING NEW_STRING
      { isDir := false, entries := exTree } rfl).1⟩

/-- C5: a per-file failure (read error, decode error or write error) never
aborts the traversal: the loop still counts every file before and after
the failing one, still produces the updated state of every later file, and
a run over a valid root always reports final counters. -/
theorem claim_C5_no_abort (old new : List Char) (pre post : List File)
    (f : File)
    (herr : f.readOk = false ∨ f.decodable = false ∨ f.writeOk = false) :
    (runLoop old new 0 0 (pre ++ f :: post)).1
        = pre.length + 1 + post.length
    ∧ (runLoop old new 0 0 (pre ++ f :: post)).2.2
        = pre.map (fun g => (update_file_content old new g).file)
          ++ (update_file_content old new f).file
            :: post.map (fun g => (update_file_content old new g).file)
    ∧ (∀ (r : Root), r.isDir = true → ∃ c u fs,
        process_directory old new r = RunOutcome.completed c u fs) := by
  refine ⟨?_, ?_, ?_⟩
  · rw [runLoop_checked]
    simp only [List.length_append, List.length_cons]
    omega
  · rw [runLoop_files]
    simp
  · intro r hr
    refine ⟨(runLoop old new 0 0 ((filesOfList r.entries).map Prod.snd)).1,
      (runLoop old new 0 0 ((filesOfList r.entries).map Prod.snd)).2.1,
      (runLoop old new 0 0 ((filesOfList r.entries).map Prod.snd)).2.2, ?_⟩
    simp [process_directory, hr]

/-- Witness for C5 at a concrete unreadable file between two others. -/
theorem claim_C5_witness :
    (unreadableFile.readOk = false ∨ unreadableFile.decodable = false
      ∨ unreadableFile.writeOk = false)
    ∧ (runLoop OLD_STRING NEW_STRING 0 0
        ([okFile] ++ unreadableFile :: [binFile])).1 = 1 + 1 + 1 :=
  ⟨Or.inl rfl,
   (claim_C5_no_abort OLD_STRING NEW_STRING [okFile] [binFile]
      unreadableFile (Or.inl rfl)).1⟩

/-- C6: at every point of the run the updated counter is at most the
checked counter, both counters are monotone along the run, the run
completes with the final counters, and the final checked counter equals
the number of regular files under the root, counted recursively. -/
theorem claim_C6_counter_invariants (old new : List Char) (r : Root)
    (hdir : r.isDir = true) :
    (∀ k : Nat,
      (runLoop old new 0 0 (((filesOfList r.entries).map Prod.snd).take k)).2.1
        ≤ (runLoop old new 0 0
            (((filesOfList r.entries).map Prod.snd).take k)).1)
    ∧ (∀ k k' : Nat, k ≤ k' →
        (runLoop old new 0 0
            (((filesOfList r.entries).map Prod.snd).take k)).1
          ≤ (runLoop old new 0 0
              (((filesOfList r.entries).map Prod.snd).take k')).1
        ∧ (runLoop old new 0 0
            (((filesOfList r.entries).map Prod.snd).take k)).2.1
          ≤ (runLoop old new 0 0
              (((filesOfList r.entries).map Prod.snd).take k')).2.1)
    ∧ process_directory old new r
        = RunOutcome.completed
            (runLoop old new 0 0 ((filesOfList r.entries).map Prod.snd)).1
            (runLoop old new 0 0 ((filesOfList r.entries).map Prod.snd)).2.1
            (runLoop old new 0 0 ((filesOfList r.entries).map Prod.snd)).2.2
    ∧ (runLoop old new 0 0 ((filesOfList r.entries).map Prod.snd)).1
        = countFilesList r.entries := by
  refine ⟨?_, ?_, ?_, ?_⟩
  · intro k
    exact runLoop_updated_le_checked old new _ 0 0 (Nat.le_refl 0)
  · intro k k' hkk
    have hsplit : ((filesOfList r.entries).map Prod.snd).take k'
        = ((filesOfList r.entries).map Prod.snd).take k
          ++ (((filesOfList r.entries).map Prod.snd).take k').drop k := by
      conv_lhs => rw [← List.take_append_drop k
        (((filesOfList r.entries).map Prod.snd).take k')]
      rw [List.take_take, Nat.min_eq_left hkk]
    constructor
    · rw [hsplit,
        (runLoop_append old new (((filesOfList r.entries).map Prod.snd).take k)
          ((((filesOfList r.entries).map Prod.snd).take k').drop k) 0 0).1]
      simp only [runLoop_checked]
      omega
    · rw [hsplit,
        (runLoop_append old new (((filesOfList r.entries).map Prod.snd).take k)
          ((((filesOfList r.entries).map Prod.snd).take k').drop k) 0 0).2]
      exact runLoop_updated_ge old new _ _ _
  · simp [process_directory, hdir]
  · rw [runLoop_checked]
    simp only [Nat.zero_add, List.length_map]
    exact length_filesOfList r.entries

/-- Witness for C6 at a concrete root. -/
theorem claim_C6_witness :
    exRoot.isDir = true
    ∧ (runLoop OLD_STRING NEW_STRING 0 0
        ((filesOfList exRoot.entries).map Prod.snd)).1
      = countFilesList exRoot.entries :=
  ⟨rfl, (claim_C6_counter_invariants OLD_STRING NEW_STRING exRoot rfl).2.2.2⟩

/-- C7 counterexample: with old = "ab" and new = "ba" the new substring
does not contain the old one, yet running the replacement twice on "aabb"
changes the content again on the second run ("aabb" becomes "abab", which
becomes "baba"), so the claimed idempotence condition fails. -/
theorem claim_C7_counterexample :
    containsSub "ab".data "ba".data = false
    ∧ pyReplace "ab".data "ba".data
        (pyReplace "ab".data "ba".data "aabb".data)
      ≠ pyReplace "ab".data "ba".data "aabb".data := by
  decide

/-- C7 (amended): a second run makes no change on every file content whose
first-run output no longer contains the old substring; the spec's side
condition (new does not contain old) is not sufficient, because a
replacement can create a fresh occurrence at the boundary with the
surrounding text. -/
theorem claim_C7_idempotent_amended (old new s : List Char)
    (h : containsSub old (pyReplace old new s) = false) :
    pyReplace old new (pyReplace old new s) = pyReplace old new s :=
  pyReplace_of_not_contains old new (pyReplace old new s) h

/-- Witness for the amended C7 at a concrete content. -/
theorem claim_C7_witness :
    containsSub "ab".data (pyReplace "ab".data "X".data "aabb".data) = false
    ∧ pyReplace "ab".data "X".data (pyReplace "ab".data "X".data "aabb".data)
        = pyReplace "ab".data "X".data "aabb".data :=
  ⟨by decide,
   claim_C7_idempotent_amended "ab".data "X".data "aabb".data (by decide)⟩

/-- C8: over a well-formed tree (distinct sibling names, as on a real
filesystem) the traversal enumerates exactly the regular files the tree
holds at every nesting depth, enumerates no path twice, and is a function
of the tree, hence deterministic. -/
theorem claim_C8_traversal (cs : List FSEntry) (hwf : wfList cs = true) :
    (∀ (p : List String) (d : File), HasFile cs p d ↔ (p, d) ∈ filesOfList cs)
    ∧ ((filesOfList cs).map Prod.fst).Nodup
    ∧ (∀ cs' : List FSEntry, cs' = cs → filesOfList cs' = filesOfList cs) := by
  refine ⟨?_, nodup_paths_list cs hwf, ?_⟩
  · intro p d
    exact ⟨hasFile_mem_filesOfList, hasFile_of_mem_list cs p d⟩
  · intro cs' h
    rw [h]

/-- Witness for C8 at a concrete nested tree. -/
theorem claim_C8_witness :
    wfList exTree = true ∧ ((filesOfList exTree).map Prod.fst).Nodup :=
  ⟨by decide, (claim_C8_traversal exTree (by decide)).2.1⟩

/-- C9: if reading or decoding fails, no write is attempted and the file's
state is exactly what it was before the call: the routine returns false
together with the unchanged file. -/
theorem claim_C9_read_path_atomic (old new : List Char) (f : File)
    (herr : f.readOk = false ∨ f.decodable = false) :
    update_file_content old new f
      = { modified := false, wrote := false, file := f } := by
  rcases herr with h | h
  · simp [update_file_content, h]
  · cases hr : f.readOk <;> simp [update_file_content, h, hr]

/-- Witness for C9 at a concrete unreadable file. -/
theorem claim_C9_witness :
    (unreadableFile.readOk = false ∨ unreadableFile.decodable = false)
    ∧ update_file_content OLD_STRING NEW_STRING unreadableFile
        = { modified := false, wrote := false, file := unreadableFile } :=
  ⟨Or.inl rfl,
   claim_C9_read_path_atomic OLD_STRING NEW_STRING unreadableFile
     (Or.inl rfl)⟩

/-- C10: with the empty old substring every decodable file passes the
occurrence test, is reported modified, and is rewritten with the new
substring inserted before every character and once at the end; the empty
pattern is never rejected as a configuration error. -/
theorem claim_C10_empty_pattern (new : List Char) (f : File)
    (hread : f.readOk = true) (hdec : f.decodable = true)
    (hwrite : f.writeOk = true) :
    containsSub [] f.content = true
    ∧ (update_file_content [] new f).modified = true
    ∧ (update_file_content [] new f).file.content
        = f.content.foldr (fun c acc => new ++ (c :: acc)) new
    ∧ (∀ r : Root, r.isDir = true →
        process_directory [] new r ≠ RunOutcome.configError) := by
  refine ⟨containsSub_nil_pattern f.content, ?_, ?_, ?_⟩
  · simp [update_file_content, hread, hdec, hwrite, containsSub_nil_pattern]
  · simp [update_file_content, hread, hdec, hwrite, containsSub_nil_pattern,
      pyReplace_nil_pattern]
  · intro r hr
    simp [process_directory, hr]

/-- Witness for C10 at a concrete file. -/
theorem claim_C10_witness :
    okFile.decodable = true
    ∧ (update_file_content [] "N".data okFile).modified = true :=
  ⟨rfl, (claim_C10_empty_pattern "N".data okFile rfl rfl rfl).2.1⟩
